import Mathlib

/-!
Verification of the `vet` validation library.

The library provides a `Vet` trait with a required `is_valid` method and a
provided `vet` method, a certified wrapper `Valid<T>`, trait implementations
for `[T; N]`, `Option<T>` and `Vec<T>`, and a `transpose` operation on
`Valid<Option<T>>`. Rust's `Result<(), E>` is embedded as `Except E Unit`;
`Vec<T>` as `List T`; `[T; N]` as a length-indexed list.
-/

universe u v

/-- The wrapper around a validated instance, from `pub struct Valid<T>(T)`.
The single private tuple field `.0` is embedded as `val`. -/
structure Valid (T : Type u) where
  val : T
deriving DecidableEq

/-- `Valid::into_inner`: consumes the `Valid` wrapper, returning the wrapped
value `self.0`. -/
def Valid.into_inner {T : Type u} (w : Valid T) : T :=
  w.val

/-- The read-only dereference view from `impl Deref for Valid<T>`, whose
`deref` returns `&self.0`; embedded as the value the reference denotes. -/
def Valid.deref {T : Type u} (w : Valid T) : T :=
  w.val

/-- The `Vet` trait: the associated type `Error` is embedded as the class
parameter `E`, and `is_valid` is the required method
`fn is_valid(&self) -> Result<(), Self::Error>`. -/
class Vet (T : Type u) (E : outParam (Type v)) where
  is_valid : T → Except E Unit

/-- The provided method `Vet::vet`: `match self.is_valid() with
Ok(()) => Ok(Valid(self)), Err(e) => Err(e)`. -/
def Vet.vet {T : Type u} {E : Type v} [Vet T E] (t : T) : Except E (Valid T) :=
  match Vet.is_valid (E := E) t with
  | Except.ok () => Except.ok (Valid.mk t)
  | Except.error e => Except.error e

/-- `Iterator::try_for_each` over the elements of a list: apply `f` left to
right, stopping at and returning the first error. -/
def tryForEach {T : Type u} {E : Type v} (f : T → Except E Unit) : List T → Except E Unit
  | [] => Except.ok ()
  | x :: xs =>
    match f x with
    | Except.ok () => tryForEach f xs
    | Except.error e => Except.error e

/-- The Rust fixed-size array type `[T; N]`: a list of elements together with
a proof that its length is `n`. -/
structure RustArray (T : Type u) (n : Nat) where
  data : List T
  size_eq : data.length = n

/-- `impl<T: Vet, const N: usize> Vet for [T; N]`:
`self.iter().try_for_each(|i| i.is_valid())`. -/
instance instVetRustArray {T : Type u} {E : Type v} [Vet T E] {n : Nat} :
    Vet (RustArray T n) E where
  is_valid a := tryForEach (fun i => Vet.is_valid (E := E) i) a.data

/-- `impl<T: Vet> Vet for Option<T>`: `Some(o) => o.is_valid(), None => Ok(())`. -/
instance instVetOption {T : Type u} {E : Type v} [Vet T E] : Vet (Option T) E where
  is_valid o :=
    match o with
    | some t => Vet.is_valid (E := E) t
    | none => Except.ok ()

/-- `impl<T: Vet> Vet for Vec<T>`: `self.iter().try_for_each(|t| t.is_valid())`. -/
instance instVetVec {T : Type u} {E : Type v} [Vet T E] : Vet (List T) E where
  is_valid v := tryForEach (fun t => Vet.is_valid (E := E) t) v

/-- `Valid::<Option<T>>::transpose`: `Valid(Some(o)) => Some(Valid(o)),
Valid(None) => None`. The `T: Vet` bound of the Rust impl block is kept. -/
def Valid.transpose {T : Type u} {E : Type v} [Vet T E] (w : Valid (Option T)) :
    Option (Valid T) :=
  match w with
  | Valid.mk (some o) => some (Valid.mk o)
  | Valid.mk none => none

/-- Rust's `Clone` capability: duplication of a value. -/
class Clone (T : Type u) where
  clone : T → T

/-- The derived `PartialEq`/`Eq` for `Valid<T>`: field-wise comparison. -/
instance instBEqValid {T : Type u} [BEq T] : BEq (Valid T) where
  beq a b := a.val == b.val

/-- The derived `PartialOrd`/`Ord` for `Valid<T>`: field-wise comparison. -/
instance instOrdValid {T : Type u} [Ord T] : Ord (Valid T) where
  compare a b := compare a.val b.val

/-- The derived `Hash` for `Valid<T>`: hash of the single field. -/
instance instHashableValid {T : Type u} [Hashable T] : Hashable (Valid T) where
  hash w := hash w.val

/-- The derived `Clone` for `Valid<T>`: clone of the single field. -/
instance instCloneValid {T : Type u} [Clone T] : Clone (Valid T) where
  clone w := Valid.mk (Clone.clone w.val)

/-- The validity invariant of a certified wrapper: the held value passes
`is_valid`. -/
def ValidInv {T : Type u} {E : Type v} [Vet T E] (w : Valid T) : Prop :=
  Vet.is_valid (E := E) w.val = Except.ok ()

/-- The test type from `tests.rs`: `struct EvenUsize(usize)`. -/
structure EvenUsize where
  val : Nat
deriving DecidableEq

/-- The test error type from `tests.rs`: `struct OddUsize`. -/
inductive OddUsize : Type where
  | mk : OddUsize
deriving DecidableEq

/-- `impl Vet for EvenUsize`: even values are valid, odd ones yield `OddUsize`. -/
instance instVetEvenUsize : Vet EvenUsize OddUsize where
  is_valid u := if u.val % 2 == 0 then Except.ok () else Except.error OddUsize.mk

instance {E : Type u} {A : Type v} [DecidableEq E] [DecidableEq A] :
    DecidableEq (Except E A) := fun a b =>
  match a, b with
  | Except.ok x, Except.ok y =>
    if h : x = y then isTrue (by rw [h]) else isFalse (fun hc => h (Except.ok.inj hc))
  | Except.ok _, Except.error _ => isFalse (fun hc => Except.noConfusion hc)
  | Except.error _, Except.ok _ => isFalse (fun hc => Except.noConfusion hc)
  | Except.error g, Except.error f =>
    if h : g = f then isTrue (by rw [h]) else isFalse (fun hc => h (Except.error.inj hc))

/-- A successful `vet` wraps exactly the input, and witnesses that `is_valid`
succeeded on it. -/
theorem vet_ok_elim {T : Type u} {E : Type v} [Vet T E] {t : T} {w : Valid T}
    (h : Vet.vet (E := E) t = Except.ok w) :
    w = Valid.mk t ∧ Vet.is_valid (E := E) t = Except.ok () := by
  unfold Vet.vet at h
  cases hv : Vet.is_valid (E := E) t with
  | ok u =>
    cases u
    rw [hv] at h
    simp only [Except.ok.injEq] at h
    exact ⟨h.symm, rfl⟩
  | error e =>
    rw [hv] at h
    simp at h

/-- `tryForEach` succeeds exactly when `f` succeeds on every element. -/
theorem tryForEach_ok_iff {T : Type u} {E : Type v} (f : T → Except E Unit) (l : List T) :
    tryForEach f l = Except.ok () ↔ ∀ x ∈ l, f x = Except.ok () := by
  induction l with
  | nil => simp [tryForEach]
  | cons x xs ih =>
    cases h : f x with
    | ok u =>
      cases u
      simp [tryForEach, h, ih]
    | error e =>
      simp only [tryForEach, h, List.mem_cons]
      constructor
      · intro hc
        exact absurd hc (by simp)
      · intro hall
        have hx := hall x (Or.inl rfl)
        rw [h] at hx
        exact absurd hx (by simp)

/-- `tryForEach` returns the error of the leftmost failing element. -/
theorem tryForEach_first_error {T : Type u} {E : Type v} (f : T → Except E Unit)
    (p q : List T) (x : T) (e : E)
    (hp : ∀ y ∈ p, f y = Except.ok ()) (hx : f x = Except.error e) :
    tryForEach f (p ++ x :: q) = Except.error e := by
  revert hp
  induction p with
  | nil =>
    intro _
    simp [tryForEach, hx]
  | cons y ys ih =>
    intro hp
    have hy : f y = Except.ok () := hp y (List.mem_cons_self y ys)
    simp only [List.cons_append, tryForEach, hy]
    exact ih (fun z hz => hp z (List.mem_cons_of_mem y hz))

/-- Claim C1: for every vettable `t`, `vet t` returns `Ok` of a wrapper holding
exactly `t` if and only if `is_valid t` returns `Ok`, and returns `Err e` if
and only if `is_valid t` returned that same error `e`; the success type carries
no copy of the value alongside the error. -/
theorem vet_matches_is_valid {T : Type u} {E : Type v} [Vet T E] (t : T) :
    (Vet.vet (E := E) t = Except.ok (Valid.mk t) ↔ Vet.is_valid (E := E) t = Except.ok ())
    ∧ ∀ e : E, (Vet.vet (E := E) t = Except.error e ↔ Vet.is_valid (E := E) t = Except.error e) := by
  unfold Vet.vet
  cases h : Vet.is_valid (E := E) t with
  | ok u => cases u; simp
  | error e => simp

/-- Claim C2: every `Valid` wrapper produced by a successful `vet` satisfies
the validity invariant, and `transpose` preserves the invariant from
`Valid (Option T)` to the inner `Valid T` without re-running `is_valid`. -/
theorem valid_invariant {T : Type u} {E : Type v} [Vet T E] :
    (∀ (t : T) (w : Valid T), Vet.vet (E := E) t = Except.ok w → ValidInv (E := E) w)
    ∧ ∀ (w : Valid (Option T)) (v : Valid T),
        ValidInv (E := E) w → Valid.transpose (E := E) w = some v → ValidInv (E := E) v := by
  constructor
  · intro t w h
    have hh := vet_ok_elim h
    rw [hh.1]
    exact hh.2
  · intro w v hw ht
    obtain ⟨o⟩ := w
    cases o with
    | none => simp [Valid.transpose] at ht
    | some t =>
      simp only [Valid.transpose, Option.some.injEq] at ht
      rw [← ht]
      exact hw

/-- Witness for C2 at the concrete input `EvenUsize 2`. -/
theorem valid_invariant_witness :
    ValidInv (E := OddUsize) (Valid.mk (EvenUsize.mk 2)) :=
  (valid_invariant (T := EvenUsize) (E := OddUsize)).1 (EvenUsize.mk 2)
    (Valid.mk (EvenUsize.mk 2)) rfl

/-- Claim C3: `is_valid` on a fixed-size array succeeds iff every element is
valid (in particular for `N = 0` it always succeeds), and on failure it
returns the error of the leftmost failing element, short-circuiting left to
right with no aggregation. -/
theorem array_is_valid_spec {T : Type u} {E : Type v} [Vet T E] {n : Nat}
    (a : RustArray T n) :
    (Vet.is_valid (E := E) a = Except.ok () ↔ ∀ x ∈ a.data, Vet.is_valid (E := E) x = Except.ok ())
    ∧ (n = 0 → Vet.is_valid (E := E) a = Except.ok ())
    ∧ ∀ (p q : List T) (x : T) (e : E),
        a.data = p ++ x :: q →
        (∀ y ∈ p, Vet.is_valid (E := E) y = Except.ok ()) →
        Vet.is_valid (E := E) x = Except.error e →
        Vet.is_valid (E := E) a = Except.error e := by
  refine ⟨?_, ?_, ?_⟩
  · exact tryForEach_ok_iff _ _
  · intro hn
    have hl : a.data = [] := List.eq_nil_of_length_eq_zero (hn ▸ a.size_eq)
    show tryForEach (fun i => Vet.is_valid (E := E) i) a.data = Except.ok ()
    rw [hl]
    rfl
  · intro p q x e hdata hp hx
    show tryForEach (fun i => Vet.is_valid (E := E) i) a.data = Except.error e
    rw [hdata]
    exact tryForEach_first_error _ p q x e hp hx

/-- Witness for C3 at the concrete test array `[12, 0, 5]`: the error of the
first failing element `5` is returned. -/
theorem array_is_valid_witness :
    Vet.is_valid (E := OddUsize)
      (RustArray.mk (n := 3) [EvenUsize.mk 12, EvenUsize.mk 0, EvenUsize.mk 5] rfl)
      = Except.error OddUsize.mk :=
  (array_is_valid_spec
      (RustArray.mk (n := 3) [EvenUsize.mk 12, EvenUsize.mk 0, EvenUsize.mk 5] rfl)).2.2
    [EvenUsize.mk 12, EvenUsize.mk 0] [] (EvenUsize.mk 5) OddUsize.mk rfl
    (by decide) rfl

/-- Claim C4: `is_valid` on `None` returns `Ok(())`, and on `Some t` returns
exactly the result of `is_valid t`, unchanged. -/
theorem option_is_valid_spec {T : Type u} {E : Type v} [Vet T E] (t : T) :
    Vet.is_valid (E := E) (none : Option T) = Except.ok ()
    ∧ Vet.is_valid (E := E) (some t) = Vet.is_valid (E := E) t :=
  ⟨rfl, rfl⟩

/-- Claim C5: `is_valid` on a `Vec` of any length obeys the same law as the
fixed-size array extension: success iff every element is valid, the empty
vector always valid, first failing element's error returned on failure. -/
theorem vec_is_valid_spec {T : Type u} {E : Type v} [Vet T E] (l : List T) :
    (Vet.is_valid (E := E) l = Except.ok () ↔ ∀ x ∈ l, Vet.is_valid (E := E) x = Except.ok ())
    ∧ (l = [] → Vet.is_valid (E := E) l = Except.ok ())
    ∧ ∀ (p q : List T) (x : T) (e : E),
        l = p ++ x :: q →
        (∀ y ∈ p, Vet.is_valid (E := E) y = Except.ok ()) →
        Vet.is_valid (E := E) x = Except.error e →
        Vet.is_valid (E := E) l = Except.error e := by
  refine ⟨?_, ?_, ?_⟩
  · exact tryForEach_ok_iff _ _
  · intro hl
    show tryForEach (fun t => Vet.is_valid (E := E) t) l = Except.ok ()
    rw [hl]
    rfl
  · intro p q x e hdata hp hx
    show tryForEach (fun t => Vet.is_valid (E := E) t) l = Except.error e
    rw [hdata]
    exact tryForEach_first_error _ p q x e hp hx

/-- Witness for C5 at the concrete test vector `[8, 7]`: the first failing
element is `7` at index 1 and its error is returned. -/
theorem vec_is_valid_witness :
    Vet.is_valid (E := OddUsize) [EvenUsize.mk 8, EvenUsize.mk 7]
      = Except.error OddUsize.mk :=
  (vec_is_valid_spec [EvenUsize.mk 8, EvenUsize.mk 7]).2.2
    [EvenUsize.mk 8] [] (EvenUsize.mk 7) OddUsize.mk rfl (by decide) rfl

/-- Claim C6: `transpose` maps `Valid(None)` to `None` and `Valid(Some t)` to
`Some (Valid t)` directly, without re-running `is_valid`; being a total
function into `Option (Valid T)`, it has no error path. -/
theorem transpose_spec {T : Type u} {E : Type v} [Vet T E] (t : T) :
    Valid.transpose (E := E) (Valid.mk (none : Option T)) = none
    ∧ Valid.transpose (E := E) (Valid.mk (some t)) = some (Valid.mk t) :=
  ⟨rfl, rfl⟩

/-- Claim C7: certifying an optional and then transposing gives the same
outcome as matching on the optional and certifying the present inner value:
`None` maps to `Ok None`, `Some t` to `Ok (Some (Valid t))` exactly when
`is_valid t` succeeds, and to the same error otherwise. -/
theorem vet_transpose_commutes {T : Type u} {E : Type v} [Vet T E] (o : Option T) :
    Except.map (Valid.transpose (E := E)) (Vet.vet (E := E) o) =
      (match o with
       | none => Except.ok none
       | some t => Except.map (fun w => some w) (Vet.vet (E := E) t)) := by
  cases o with
  | none => rfl
  | some t =>
    show Except.map (Valid.transpose (E := E)) (Vet.vet (E := E) (some t))
        = Except.map (fun w => some w) (Vet.vet (E := E) t)
    unfold Vet.vet
    have hs : Vet.is_valid (E := E) (some t) = Vet.is_valid (E := E) t := rfl
    rw [hs]
    cases h : Vet.is_valid (E := E) t with
    | ok u => cases u; rfl
    | error e => rfl

/-- Claim C8: if `vet t` succeeds producing wrapper `w`, then `w.into_inner()`
returns exactly the `t` originally passed to `vet`. -/
theorem vet_into_inner_round_trip {T : Type u} {E : Type v} [Vet T E] (t : T) (w : Valid T)
    (h : Vet.vet (E := E) t = Except.ok w) : Valid.into_inner w = t := by
  rw [(vet_ok_elim h).1]
  rfl

/-- Witness for C8 at the concrete input `EvenUsize 4`. -/
theorem vet_into_inner_round_trip_witness :
    Valid.into_inner (Valid.mk (EvenUsize.mk 4)) = EvenUsize.mk 4 :=
  vet_into_inner_round_trip (EvenUsize.mk 4) (Valid.mk (EvenUsize.mk 4)) rfl

/-- Claim C9: the derived comparisons and duplication of `Valid<T>` delegate
structurally to the held value: propositional and boolean equality of wrappers
coincide with those of the values, the ordering of wrappers is the ordering of
the values, hashing delegates, and cloning a wrapper clones the held value. -/
theorem valid_structural_delegation {T : Type u} [BEq T] [Ord T] [Hashable T] [Clone T]
    (a b : T) :
    (Valid.mk a = Valid.mk b ↔ a = b)
    ∧ ((Valid.mk a == Valid.mk b) = (a == b))
    ∧ (compare (Valid.mk a) (Valid.mk b) = compare a b)
    ∧ (hash (Valid.mk a) = hash a)
    ∧ (Clone.clone (Valid.mk a) = Valid.mk (Clone.clone a)) := by
  refine ⟨⟨fun h => congrArg Valid.val h, fun h => by rw [h]⟩, rfl, rfl, rfl, rfl⟩

/-- Claim C10: the read-only dereference view of a `Valid<T>` wrapper denotes
exactly the value `into_inner` returns — both observe the single held field
and neither alters it — so the two public read paths always agree. -/
theorem deref_agrees_into_inner {T : Type u} (w : Valid T) :
    Valid.deref w = Valid.into_inner w
    ∧ Valid.deref w = w.val
    ∧ Valid.into_inner w = w.val :=
  ⟨rfl, rfl, rfl⟩
